import Mathlib

/-
Verification of the json-abc-converter repository (src/main.go).

Go strings are sequences of bytes; the program manipulates them with
byte-level operations (strings.HasSuffix, strings.Contains, strings.Replace,
strings.ReplaceAll, len, slicing).  We therefore embed a Go string as a
List Nat of its UTF-8 bytes.  Every string literal appearing in main.go is
pure ASCII, so its byte sequence equals its code-point sequence; the helper
bytes below produces it from a Lean string literal.
-/

/-- UTF-8 bytes of an ASCII string literal. All literals used by main.go are
ASCII, so the code points returned here coincide with the UTF-8 bytes. -/
def bytes (s : String) : List Nat := s.toList.map Char.toNat

/-- Byte sequence written by the Go newline escape in the Fprintf format
strings of main.go. -/
def newline : List Nat := [10]

/-- Lowercasing of a single byte, modelling strings.ToLower from the Go
standard library on the ASCII range (bytes 65-90 map to 97-122). Go also
lowercases non-ASCII letters, which changes continuation bytes outside the
ASCII range; those bytes can never match the all-ASCII patterns that
modeToBetter searches for, so rule selection is unaffected. -/
def asciiToLowerByte (b : Nat) : Nat :=
  if 65 ≤ b ∧ b ≤ 90 then b + 32 else b

/-- Lowercasing of a byte string, modelling strings.ToLower as used by
modeToBetter in main.go. -/
def goToLower (s : List Nat) : List Nat := s.map asciiToLowerByte

/-- Embedding of strings.TrimSuffix from the Go standard library: when the
string ends with the given pattern the pattern is cut off, otherwise the
string is returned unchanged. -/
def trimSuffix (s pat : List Nat) : List Nat :=
  if pat.isSuffixOf s then s.take (s.length - pat.length) else s

/-- Embedding of strings.Contains from the Go standard library: true when
the pattern occurs as a contiguous substring. -/
def strContains : List Nat → List Nat → Bool
  | [], pat => pat.isEmpty
  | a :: t, pat => pat.isPrefixOf (a :: t) || strContains t pat

/-- Embedding of strings.Replace with limit 1 as called from modeToBetter in
main.go: the first occurrence of the pattern, when present, is replaced.
All patterns passed to it in main.go are nonempty. -/
def replaceFirst : List Nat → List Nat → List Nat → List Nat
  | [], _, _ => []
  | a :: t, pat, repl =>
    if pat.isPrefixOf (a :: t) then repl ++ (a :: t).drop pat.length
    else a :: replaceFirst t pat repl

/-- Embedding of strings.ReplaceAll as called from sanitizeFileName in
main.go: every occurrence of the pattern is replaced. All patterns passed to
it in main.go are single bytes, hence nonempty; for an empty pattern this
definition returns the string unchanged while Go would interleave the
replacement, a case the program never exercises. -/
def replaceAll (pat repl : List Nat) : List Nat → List Nat
  | [] => []
  | a :: t =>
    if h : pat ≠ [] ∧ pat.isPrefixOf (a :: t) = true then
      repl ++ replaceAll pat repl ((a :: t).drop pat.length)
    else
      a :: replaceAll pat repl t
termination_by s => s.length
decreasing_by
  · simp only [List.length_drop, List.length_cons]
    have hp : 0 < pat.length := List.length_pos.mpr h.1
    omega
  · simp

/-- Embedding of modeToBetter from main.go (lines 169-191): lowercase, then
an if-else chain testing a major suffix, a minor suffix, and the five church
mode names as substrings, first match winning. -/
def modeToBetter (mode0 : List Nat) : List Nat :=
  let mode := goToLower mode0
  if (bytes "major").isSuffixOf mode then trimSuffix mode (bytes "major")
  else if (bytes "minor").isSuffixOf mode then trimSuffix mode (bytes "minor") ++ bytes "m"
  else if strContains mode (bytes "mixolydian") then replaceFirst mode (bytes "mixolydian") (bytes " mix")
  else if strContains mode (bytes "dorian") then replaceFirst mode (bytes "dorian") (bytes " dor")
  else if strContains mode (bytes "phrygian") then replaceFirst mode (bytes "phrygian") (bytes " phr")
  else if strContains mode (bytes "lydian") then replaceFirst mode (bytes "lydian") (bytes " lyd")
  else if strContains mode (bytes "locrian") then replaceFirst mode (bytes "locrian") (bytes " loc")
  else mode

/-- Rule list transcribing the mode-normalizer contract of the spec
(section 4.2): an ordered list of predicate and transform pairs, applied
first match wins. This is the spec-side description that the code-side
modeToBetter is compared against. -/
def modeRules : List ((List Nat → Bool) × (List Nat → List Nat)) :=
  [ (fun s => (bytes "major").isSuffixOf s, fun s => trimSuffix s (bytes "major")),
    (fun s => (bytes "minor").isSuffixOf s, fun s => trimSuffix s (bytes "minor") ++ bytes "m"),
    (fun s => strContains s (bytes "mixolydian"), fun s => replaceFirst s (bytes "mixolydian") (bytes " mix")),
    (fun s => strContains s (bytes "dorian"), fun s => replaceFirst s (bytes "dorian") (bytes " dor")),
    (fun s => strContains s (bytes "phrygian"), fun s => replaceFirst s (bytes "phrygian") (bytes " phr")),
    (fun s => strContains s (bytes "lydian"), fun s => replaceFirst s (bytes "lydian") (bytes " lyd")),
    (fun s => strContains s (bytes "locrian"), fun s => replaceFirst s (bytes "locrian") (bytes " loc")) ]

/-- Application of an ordered rule list, first match wins; a string matching
no rule passes through unchanged. -/
def applyRules : List ((List Nat → Bool) × (List Nat → List Nat)) → List Nat → List Nat
  | [], s => s
  | (p, f) :: rs, s => if p s then f s else applyRules rs s

/-- Mode normalizer as the spec words it: lowercase the input, then apply
the ordered rule list with first match winning. -/
def modeNormalizeSpec (m : List Nat) : List Nat :=
  applyRules modeRules (goToLower m)

theorem goToLower_idem (s : List Nat) : goToLower (goToLower s) = goToLower s := by
  simp only [goToLower, List.map_map]
  apply List.map_congr_left
  intro b _
  simp only [Function.comp, asciiToLowerByte]
  split_ifs <;> omega

/-- C1: the mode normalizer applies the spec rule list in order with first
match winning (lowercase, strip a major suffix, strip a minor suffix and
append m, else replace the first of the five mode names in order, else pass
the lowercased input through), and in particular Gmajor maps to g, Aminor
to am and Dmixolydian to d mix. -/
theorem C1_mode_normalizer_rules :
    (∀ m : List Nat, modeToBetter m = modeNormalizeSpec m) ∧
    modeToBetter (bytes "Gmajor") = bytes "g" ∧
    modeToBetter (bytes "Aminor") = bytes "am" ∧
    modeToBetter (bytes "Dmixolydian") = bytes "d mix" := by
  refine ⟨fun m => rfl, by decide, by decide, by decide⟩

/-- C8 counterexample: the string GMAJOR satisfies, as written, every
hypothesis of the claim (it does not end with major or minor and contains
none of the five mode-name substrings), yet the normalizer does not return
it lowercased: it returns g, because the code tests the suffixes after
lowercasing while the claim states its conditions on the original string. -/
theorem C8_idempotence_cex :
    (bytes "major").isSuffixOf (bytes "GMAJOR") = false ∧
    (bytes "minor").isSuffixOf (bytes "GMAJOR") = false ∧
    strContains (bytes "GMAJOR") (bytes "mixolydian") = false ∧
    strContains (bytes "GMAJOR") (bytes "dorian") = false ∧
    strContains (bytes "GMAJOR") (bytes "phrygian") = false ∧
    strContains (bytes "GMAJOR") (bytes "lydian") = false ∧
    strContains (bytes "GMAJOR") (bytes "locrian") = false ∧
    modeToBetter (bytes "GMAJOR") ≠ goToLower (bytes "GMAJOR") := by
  decide

/-- C8 amended: for every string whose lowercasing does not end with major
or minor and contains none of the five mode-name substrings, normalizing
returns the lowercased input, and normalizing that result again returns the
same string. -/
theorem C8_idempotence_amended (m : List Nat)
    (h1 : (bytes "major").isSuffixOf (goToLower m) = false)
    (h2 : (bytes "minor").isSuffixOf (goToLower m) = false)
    (h3 : strContains (goToLower m) (bytes "mixolydian") = false)
    (h4 : strContains (goToLower m) (bytes "dorian") = false)
    (h5 : strContains (goToLower m) (bytes "phrygian") = false)
    (h6 : strContains (goToLower m) (bytes "lydian") = false)
    (h7 : strContains (goToLower m) (bytes "locrian") = false) :
    modeToBetter m = goToLower m ∧ modeToBetter (goToLower m) = goToLower m := by
  constructor
  · simp [modeToBetter, h1, h2, h3, h4, h5, h6, h7]
  · simp [modeToBetter, goToLower_idem, h1, h2, h3, h4, h5, h6, h7]

/-- C8 witness: the already-normalized key g satisfies the hypotheses of the
amended claim and is a fixed point of the normalizer. -/
theorem C8_idempotence_witness :
    modeToBetter (bytes "g") = goToLower (bytes "g") ∧
    modeToBetter (goToLower (bytes "g")) = goToLower (bytes "g") :=
  C8_idempotence_amended (bytes "g") (by decide) (by decide) (by decide)
    (by decide) (by decide) (by decide) (by decide)

/-- The nine filename-illegal characters of sanitizeFileName in main.go, in
source order, each as the byte string of one ASCII character: slash,
backslash, colon, asterisk, question mark, double quote, less-than,
greater-than, vertical bar. -/
def illegalChars : List (List Nat) :=
  [[47], [92], [58], [42], [63], [34], [60], [62], [124]]

/-- The same nine illegal characters as single bytes, for stating membership
facts about sanitizer output. -/
def illegalBytes : List Nat := [47, 92, 58, 42, 63, 34, 60, 62, 124]

/-- Embedding of sanitizeFileName from main.go (lines 151-166): replace each
of the nine illegal characters by an underscore (byte 95) with a loop of
strings.ReplaceAll calls, then cut the result to its first 50 bytes when it
is longer than 50 bytes (len and slicing in Go count bytes). -/
def sanitizeFileName (name : List Nat) : List Nat :=
  let result := illegalChars.foldl (fun r ch => replaceAll ch [95] r) name
  if 50 < result.length then result.take 50 else result

theorem replaceAll_single (c d : Nat) :
    ∀ s : List Nat, replaceAll [c] [d] s = s.map fun b => if b = c then d else b
  | [] => by rw [replaceAll]; rfl
  | a :: t => by
    rw [replaceAll]
    by_cases hac : a = c
    · simp [List.isPrefixOf, hac, replaceAll_single c d t]
    · simp [List.isPrefixOf, hac, Ne.symm hac, replaceAll_single c d t]

theorem foldl_replaceAll_eq_map (cs : List Nat) (h95 : 95 ∉ cs) :
    ∀ s : List Nat,
      (cs.map fun c => [c]).foldl (fun r ch => replaceAll ch [95] r) s =
        s.map fun b => if b ∈ cs then 95 else b := by
  induction cs with
  | nil => intro s; simp
  | cons c cs ih =>
    intro s
    have h95c : 95 ∉ cs := fun hm => h95 (List.mem_cons_of_mem c hm)
    simp only [List.map_cons, List.foldl_cons, replaceAll_single, ih h95c,
      List.map_map]
    apply List.map_congr_left
    intro b _
    simp only [Function.comp, List.mem_cons]
    by_cases hbc : b = c
    · simp [hbc, h95c]
    · simp [hbc]

theorem sanitize_phase_eq (name : List Nat) :
    illegalChars.foldl (fun r ch => replaceAll ch [95] r) name =
      name.map fun b => if b ∈ illegalBytes then 95 else b := by
  have hrepr : illegalChars = illegalBytes.map fun c => [c] := rfl
  rw [hrepr]
  exact foldl_replaceAll_eq_map illegalBytes (by decide) name

theorem sanitizeFileName_eq_map (name : List Nat) :
    sanitizeFileName name =
      if 50 < name.length then
        (name.map fun b => if b ∈ illegalBytes then 95 else b).take 50
      else name.map fun b => if b ∈ illegalBytes then 95 else b := by
  simp [sanitizeFileName, sanitize_phase_eq]

/-- C2 counterexample: sanitizing the title with a colon-space in it keeps
the space, so the result differs from the string the claim expects. -/
theorem C2_sanitize_example_cex :
    sanitizeFileName (bytes "Tune: The/Best?") ≠ bytes "Tune__The_Best_" := by
  rw [sanitizeFileName_eq_map]
  decide

/-- C2 amended: sanitizing that title replaces the colon, the slash and the
question mark by underscores and keeps the space after the colon, giving a
result with an underscore-space pair where the claim expected a double
underscore. -/
theorem C2_sanitize_example_amended :
    sanitizeFileName (bytes "Tune: The/Best?") = bytes "Tune_ The_Best_" := by
  rw [sanitizeFileName_eq_map]
  decide

/-- Number of UTF-8 encoded characters of a byte string, or none when the
bytes are not well-formed UTF-8 (RFC 3629: no overlong encodings, no
surrogates, no code points past U+10FFFF). Used to compare the byte-level
truncation of sanitizeFileName with the character-level wording of the
claim. -/
def isCont (b : Nat) : Bool := decide (128 ≤ b ∧ b ≤ 191)

/-- Character count of a UTF-8 byte string, none on ill-formed input. -/
def utf8CharCount : List Nat → Option Nat
  | [] => some 0
  | b :: rest =>
    if b ≤ 127 then (utf8CharCount rest).map (· + 1)
    else if 194 ≤ b ∧ b ≤ 223 then
      match rest with
      | b1 :: rest2 =>
        if isCont b1 then (utf8CharCount rest2).map (· + 1) else none
      | [] => none
    else if b = 224 then
      match rest with
      | b1 :: b2 :: rest2 =>
        if (160 ≤ b1 ∧ b1 ≤ 191) ∧ isCont b2 then (utf8CharCount rest2).map (· + 1)
        else none
      | _ => none
    else if b = 237 then
      match rest with
      | b1 :: b2 :: rest2 =>
        if (128 ≤ b1 ∧ b1 ≤ 159) ∧ isCont b2 then (utf8CharCount rest2).map (· + 1)
        else none
      | _ => none
    else if 225 ≤ b ∧ b ≤ 239 then
      match rest with
      | b1 :: b2 :: rest2 =>
        if isCont b1 ∧ isCont b2 then (utf8CharCount rest2).map (· + 1) else none
      | _ => none
    else if b = 240 then
      match rest with
      | b1 :: b2 :: b3 :: rest2 =>
        if (144 ≤ b1 ∧ b1 ≤ 191) ∧ isCont b2 ∧ isCont b3 then
          (utf8CharCount rest2).map (· + 1)
        else none
      | _ => none
    else if 241 ≤ b ∧ b ≤ 243 then
      match rest with
      | b1 :: b2 :: b3 :: rest2 =>
        if isCont b1 ∧ isCont b2 ∧ isCont b3 then (utf8CharCount rest2).map (· + 1)
        else none
      | _ => none
    else if b = 244 then
      match rest with
      | b1 :: b2 :: b3 :: rest2 =>
        if (128 ≤ b1 ∧ b1 ≤ 143) ∧ isCont b2 ∧ isCont b3 then
          (utf8CharCount rest2).map (· + 1)
        else none
      | _ => none
    else none

/-- Title of 51 characters and 53 bytes: 49 letters a followed by two copies
of the letter e with acute accent (UTF-8 bytes 195, 169). -/
def exTitle : List Nat := List.replicate 49 97 ++ [195, 169, 195, 169]

/-- C3 counterexample: this valid 51-character title is longer than 50
characters, but sanitizing it cuts at 50 bytes in the middle of a two-byte
character, so the output is not valid UTF-8 at all: it is neither exactly
50 characters nor a shorter string cut at a valid character boundary. -/
theorem C3_truncation_cex :
    utf8CharCount exTitle = some 51 ∧
    utf8CharCount (sanitizeFileName exTitle) = none := by
  constructor
  · decide
  · rw [sanitizeFileName_eq_map]
    decide

/-- C3 amended: for every title longer than 50 bytes, the sanitizer output
is exactly 50 bytes; the cut is a raw byte cut with no adjustment to
character boundaries, so it can split a multi-byte character and leave
ill-formed UTF-8. -/
theorem C3_truncation_amended (s : List Nat) (h : 50 < s.length) :
    (sanitizeFileName s).length = 50 := by
  rw [sanitizeFileName_eq_map]
  simp only [List.length_map, h, if_true, List.length_take]
  omega

/-- C3 witness: a title of 51 bytes is cut to exactly 50 bytes. -/
theorem C3_truncation_witness :
    50 < (List.replicate 51 97).length ∧
    (sanitizeFileName (List.replicate 51 97)).length = 50 :=
  ⟨by decide, C3_truncation_amended (List.replicate 51 97) (by decide)⟩

/-- C10: for every input string, the sanitizer output is at most 50 bytes
long and contains none of the nine illegal bytes. -/
theorem C10_sanitizer_safety (s : List Nat) :
    (sanitizeFileName s).length ≤ 50 ∧
    ∀ b, b ∈ sanitizeFileName s → b ∉ illegalBytes := by
  rw [sanitizeFileName_eq_map]
  constructor
  · split_ifs with h
    · simp only [List.length_take, List.length_map]
      omega
    · simp only [List.length_map]
      omega
  · intro b hb
    have hmem : b ∈ s.map fun b => if b ∈ illegalBytes then 95 else b := by
      split_ifs at hb with h
      · exact List.take_subset 50 _ hb
      · exact hb
    obtain ⟨a, _, ha⟩ := List.mem_map.mp hmem
    by_cases hail : a ∈ illegalBytes
    · simp only [hail, if_true] at ha
      rw [← ha]
      decide
    · simp only [hail, if_false] at ha
      rw [← ha]
      exact hail

/-- C10 witness: at a concrete title holding an illegal byte, the output is
within the length bound and the underscore byte written for it is legal. -/
theorem C10_sanitizer_witness :
    (sanitizeFileName (bytes "a?b")).length ≤ 50 ∧ 95 ∉ illegalBytes :=
  ⟨(C10_sanitizer_safety (bytes "a?b")).1,
   (C10_sanitizer_safety (bytes "a?b")).2 95
     (by rw [sanitizeFileName_eq_map]; decide)⟩

/-- Embedding of the Tune struct from main.go (lines 14-24); every field is
a Go string, embedded as its byte sequence. The Go field named Type is
called TuneType here because Type is reserved in Lean. -/
structure Tune where
  TuneID : List Nat
  SettingID : List Nat
  Name : List Nat
  TuneType : List Nat
  Meter : List Nat
  Mode : List Nat
  ABC : List Nat
  Date : List Nat
  Username : List Nat
deriving DecidableEq

/-- Zero value of the Tune struct: every field is the empty string, as Go
initializes a struct whose fields are not set by the decoder. -/
def emptyTune : Tune :=
  { TuneID := [], SettingID := [], Name := [], TuneType := [], Meter := [],
    Mode := [], ABC := [], Date := [], Username := [] }

/-- Byte stream written for one tune by the Fprintf/Fprintln sequence that
appears verbatim in both outputToSingleFile (main.go lines 86-99) and
outputToMultipleFiles (main.go lines 123-136): the five header lines, the
optional Z and H lines, then the abc body terminated by the newline that
Fprintln appends. -/
def renderTune (t : Tune) : List Nat :=
  bytes "X:" ++ t.SettingID ++ newline ++
  (bytes "T:" ++ t.Name ++ newline ++
  (bytes "R:" ++ t.TuneType ++ newline ++
  (bytes "M:" ++ t.Meter ++ newline ++
  (bytes "K:" ++ modeToBetter t.Mode ++ newline ++
  ((if t.Username ≠ [] then bytes "Z:" ++ t.Username ++ newline else []) ++
  ((if t.Date ≠ [] then bytes "H:Added " ++ t.Date ++ newline else []) ++
  (t.ABC ++ newline)))))))

/-- Concatenation of a list of lines, each terminated by a newline; used to
state what the renderer emits line by line. -/
def joinLines (ls : List (List Nat)) : List Nat :=
  (ls.map fun l => l ++ newline).flatten

/-- Content of the single output file produced by outputToSingleFile in
main.go (lines 75-104): each tune rendered in input order, followed by the
blank line the final Fprintln of the loop body writes. -/
def outputToSingleFile (tunes : List Tune) : List Nat :=
  tunes.foldl (fun acc t => acc ++ (renderTune t ++ newline)) []

/-- Name of the file created for one tune by outputToMultipleFiles in
main.go (line 112): the setting id, an underscore, the sanitized name, and
the abc extension, as produced by fmt.Sprintf. -/
def fileNameFor (t : Tune) : List Nat :=
  t.SettingID ++ bytes "_" ++ sanitizeFileName t.Name ++ bytes ".abc"

/-- Loop body of outputToMultipleFiles in main.go (lines 106-148), indexed
by the position of the tune. File creation can fail; which creations fail is
abstracted as a predicate on the index. A failing tune is skipped (the Go
continue statement) and the loop moves on; a succeeding tune contributes its
file and increments the processed counter. The result is the list of files
written, each a name and content pair in input order, with the final
counter. -/
def outputToMultipleFilesAux (fail : Nat → Bool) :
    Nat → List Tune → List (List Nat × List Nat) × Nat
  | _, [] => ([], 0)
  | i, t :: ts =>
    let rest := outputToMultipleFilesAux fail (i + 1) ts
    if fail i then rest
    else ((fileNameFor t, renderTune t) :: rest.1, rest.2 + 1)

/-- Embedding of outputToMultipleFiles from main.go: the loop starting at
index 0. -/
def outputToMultipleFiles (fail : Nat → Bool) (tunes : List Tune) :
    List (List Nat × List Nat) × Nat :=
  outputToMultipleFilesAux fail 0 tunes

/-- C4: the rendered block of every tune is exactly the lines X, T, R, M, K
in that fixed order, then a Z line exactly when the username is non-empty,
then an H Added line exactly when the date is non-empty, then the abc body
copied verbatim with its terminating newline; empty required fields leave
nothing after the prefix of their line. -/
theorem C4_renderer_block (t : Tune) :
    renderTune t =
      joinLines
        ([bytes "X:" ++ t.SettingID, bytes "T:" ++ t.Name,
          bytes "R:" ++ t.TuneType, bytes "M:" ++ t.Meter,
          bytes "K:" ++ modeToBetter t.Mode] ++
         (if t.Username ≠ [] then [bytes "Z:" ++ t.Username] else []) ++
         (if t.Date ≠ [] then [bytes "H:Added " ++ t.Date] else [])) ++
      t.ABC ++ newline := by
  by_cases hu : t.Username = [] <;> by_cases hd : t.Date = [] <;>
    simp [renderTune, joinLines, hu, hd, List.append_assoc]

theorem foldl_append_join {α : Type} (f : α → List Nat) :
    ∀ (l : List α) (init : List Nat),
      l.foldl (fun acc t => acc ++ f t) init = init ++ (l.map f).flatten
  | [], init => by simp
  | a :: l, init => by
    simp [List.foldl_cons, foldl_append_join f l, List.append_assoc]

theorem getLast?_append_right (l r : List Nat) (a : Nat)
    (h : r.getLast? = some a) : (l ++ r).getLast? = some a := by
  induction l with
  | nil => simpa using h
  | cons x l ih =>
    have hr : r ≠ [] := by
      intro he
      rw [he] at h
      simp at h
    have hlr : l ++ r ≠ [] := by
      simp [hr]
    rw [List.cons_append, List.getLast?_cons, ih]
    simp [hlr]

/-- C5: single-file mode concatenates, in input order, the rendered block of
each tune followed by one separator newline; every rendered block itself
ends with a newline, so consecutive blocks are separated by exactly one
blank line, and for two tunes the file is the first block, a blank line, the
second block and a final blank line. -/
theorem C5_single_file_layout :
    (∀ tunes : List Tune,
       outputToSingleFile tunes = (tunes.map fun t => renderTune t ++ newline).flatten) ∧
    (∀ t1 t2 : Tune,
       outputToSingleFile [t1, t2] =
         renderTune t1 ++ newline ++ (renderTune t2 ++ newline)) ∧
    (∀ t : Tune, (renderTune t).getLast? = some 10) := by
  refine ⟨fun tunes => ?_, fun t1 t2 => ?_, fun t => ?_⟩
  · simpa using foldl_append_join (fun t => renderTune t ++ newline) tunes []
  · simp [outputToSingleFile, List.append_assoc]
  · unfold renderTune
    apply getLast?_append_right
    apply getLast?_append_right
    apply getLast?_append_right
    apply getLast?_append_right
    apply getLast?_append_right
    apply getLast?_append_right
    apply getLast?_append_right
    exact List.getLast?_concat _

theorem outputToMultipleFilesAux_eq (fail : Nat → Bool) :
    ∀ (ts : List Tune) (i : Nat),
      outputToMultipleFilesAux fail i ts =
        (((List.enumFrom i ts).filter fun p => !(fail p.1)).map
           fun p => (fileNameFor p.2, renderTune p.2),
         ((List.enumFrom i ts).filter fun p => !(fail p.1)).length)
  | [], i => by simp [outputToMultipleFilesAux]
  | t :: ts, i => by
    rw [outputToMultipleFilesAux]
    by_cases hf : fail i <;>
      simp [hf, outputToMultipleFilesAux_eq fail ts (i + 1), List.enumFrom,
        List.filter]

/-- C6: multi-file mode writes one file per tune whose creation succeeds, in
input order, named by fileNameFor (the setting id, an underscore, the
sanitized name and the abc extension); a tune whose file creation fails is
skipped while the remaining tunes are still processed, as the filter over
all indexed tunes shows; hence at most one file per input tune is written
and the reported success count is at most the input length. -/
theorem C6_multi_file_output (fail : Nat → Bool) (tunes : List Tune) :
    (outputToMultipleFiles fail tunes).1 =
      ((tunes.enum.filter fun p => !(fail p.1)).map
         fun p => (fileNameFor p.2, renderTune p.2)) ∧
    (outputToMultipleFiles fail tunes).1.length ≤ tunes.length ∧
    (outputToMultipleFiles fail tunes).2 ≤ tunes.length := by
  have he : outputToMultipleFiles fail tunes =
      (((List.enumFrom 0 tunes).filter fun p => !(fail p.1)).map
         fun p => (fileNameFor p.2, renderTune p.2),
       ((List.enumFrom 0 tunes).filter fun p => !(fail p.1)).length) :=
    outputToMultipleFilesAux_eq fail tunes 0
  have hlen : ((List.enumFrom 0 tunes).filter fun p => !(fail p.1)).length ≤
      tunes.length := by
    calc ((List.enumFrom 0 tunes).filter fun p => !(fail p.1)).length
        ≤ (List.enumFrom 0 tunes).length := List.length_filter_le _ _
      _ = tunes.length := List.enumFrom_length
  refine ⟨?_, ?_, ?_⟩
  · rw [he]
    simp [List.enum]
  · rw [he]
    simpa using hlen
  · rw [he]
    exact hlen

/-- JSON values, used to model the parsed form of the input file. The
numeric payload is irrelevant to the program and kept as an integer. -/
inductive JValue where
  | null : JValue
  | bool : Bool → JValue
  | num : Int → JValue
  | str : List Nat → JValue
  | arr : List JValue → JValue
  | obj : List (List Nat × JValue) → JValue

/-- Modelled from the spec: the record decoder of section 4.1. The decoding
itself is performed by json.Unmarshal of the Go standard library, which is
not part of this repository, so it is modelled here from the words of the
spec: the input must be an array of objects, every known field must be a
string when present, a field that is absent keeps the zero value of the
struct (the empty string), unknown keys are ignored, and the first type
mismatch makes the whole decode fail. Reading a string value out of a JSON
value: anything other than a string is a type error. -/
def expectStr (v : JValue) : Except (List Nat) (List Nat) :=
  match v with
  | .str s => .ok s
  | _ => .error (bytes "json: cannot unmarshal value into string field")

/-- Assignment of one object member to the matching Tune field, by the json
tags of the struct in main.go (lines 14-24); a key matching no tag is
ignored. -/
def setField (t : Tune) (key : List Nat) (v : JValue) : Except (List Nat) Tune :=
  if key = bytes "tune_id" then (expectStr v).map fun s => { t with TuneID := s }
  else if key = bytes "setting_id" then (expectStr v).map fun s => { t with SettingID := s }
  else if key = bytes "name" then (expectStr v).map fun s => { t with Name := s }
  else if key = bytes "type" then (expectStr v).map fun s => { t with TuneType := s }
  else if key = bytes "meter" then (expectStr v).map fun s => { t with Meter := s }
  else if key = bytes "mode" then (expectStr v).map fun s => { t with Mode := s }
  else if key = bytes "abc" then (expectStr v).map fun s => { t with ABC := s }
  else if key = bytes "date" then (expectStr v).map fun s => { t with Date := s }
  else if key = bytes "username" then (expectStr v).map fun s => { t with Username := s }
  else .ok t

/-- Decoding of the member list of one object into a Tune, starting from a
given record; members are applied in order, so a repeated key keeps its last
value, and a member of the wrong type fails the decode. -/
def decodeTuneFields (t : Tune) : List (List Nat × JValue) → Except (List Nat) Tune
  | [] => .ok t
  | (k, v) :: fs => do
    let t2 ← setField t k v
    decodeTuneFields t2 fs

/-- Decoding of one array element: it must be an object, whose members are
folded over the zero Tune. -/
def decodeTune (v : JValue) : Except (List Nat) Tune :=
  match v with
  | .obj fs => decodeTuneFields emptyTune fs
  | _ => .error (bytes "json: cannot unmarshal value into Tune")

/-- Decoding of the element list of the top-level array; the first failing
element fails the whole decode. -/
def decodeTuneList : List JValue → Except (List Nat) (List Tune)
  | [] => .ok []
  | v :: vs => do
    let t ← decodeTune v
    let ts ← decodeTuneList vs
    .ok (t :: ts)

/-- Decoding of the whole input value: it must be an array. -/
def decodeTunes (v : JValue) : Except (List Nat) (List Tune) :=
  match v with
  | .arr es => decodeTuneList es
  | _ => .error (bytes "json: cannot unmarshal value into tune slice")

/-- Result of json.Unmarshal on the raw input: a syntactically malformed
input, modelled as the absence of a parsed value, is a decode error, and a
parsed value goes through the tune decoder. -/
def unmarshalTunes (input : Option JValue) : Except (List Nat) (List Tune) :=
  match input with
  | none => .error (bytes "invalid character in JSON input")
  | some v => decodeTunes v

/-- Observable outcome of one run of the converter: the exit status of the
process, the content of the single output file when one was written, and the
tune files written in multi-file mode. -/
structure RunResult where
  exitCode : Nat
  singleOut : Option (List Nat)
  files : List (List Nat × List Nat)
deriving DecidableEq

/-- Embedding of the main flow of main.go after the input file has been
read (lines 46-73): json.Unmarshal is applied; on a decode error the
process prints the error and exits with status 1 before any output file is
touched; on success the selected writer runs. -/
def runMain (input : Option JValue) (single : Bool) (fail : Nat → Bool) : RunResult :=
  match unmarshalTunes input with
  | .error _ => { exitCode := 1, singleOut := none, files := [] }
  | .ok tunes =>
    if single then
      { exitCode := 0, singleOut := some (outputToSingleFile tunes), files := [] }
    else
      { exitCode := 0, singleOut := none, files := (outputToMultipleFiles fail tunes).1 }

/-- C7: when decoding fails, for malformed syntax or for any value the tune
decoder rejects such as a wrong-typed field, the process exits with the
non-zero status 1 and writes no output at all; and decoding is all-or-nothing,
since one failing element fails the decode of the whole array. -/
theorem C7_decode_error_aborts :
    (∀ (input : Option JValue) (single : Bool) (fail : Nat → Bool) (e : List Nat),
       unmarshalTunes input = .error e →
       runMain input single fail = { exitCode := 1, singleOut := none, files := [] }) ∧
    (∀ (vs : List JValue) (v : JValue) (e : List Nat),
       v ∈ vs → decodeTune v = .error e →
       ∃ e2, decodeTuneList vs = .error e2) := by
  constructor
  · intro input single fail e he
    simp [runMain, he]
  · intro vs
    induction vs with
    | nil => intro v e hv; simp at hv
    | cons w ws ih =>
      intro v e hv hverr
      rcases List.mem_cons.mp hv with hvw | hvtail
      · subst hvw
        exact ⟨e, by simp only [decodeTuneList, hverr]; rfl⟩
      · cases hw : decodeTune w with
        | error ew => exact ⟨ew, by simp only [decodeTuneList, hw]; rfl⟩
        | ok tw =>
          obtain ⟨e2, he2⟩ := ih v e hvtail hverr
          exact ⟨e2, by simp only [decodeTuneList, hw, he2]; rfl⟩

/-- C7 witness: an array whose only element gives the name field a number
makes the run exit with status 1 and write nothing, and that element fails
the decode of the element list. -/
theorem C7_decode_error_witness :
    runMain (some (JValue.arr [JValue.obj [(bytes "name", JValue.num 3)]]))
        true (fun _ => false) =
      { exitCode := 1, singleOut := none, files := [] } ∧
    ∃ e2, decodeTuneList [JValue.obj [(bytes "name", JValue.num 3)]] = .error e2 :=
  ⟨C7_decode_error_aborts.1
     (some (JValue.arr [JValue.obj [(bytes "name", JValue.num 3)]]))
     true (fun _ => false)
     (bytes "json: cannot unmarshal value into string field") rfl,
   C7_decode_error_aborts.2 [JValue.obj [(bytes "name", JValue.num 3)]]
     (JValue.obj [(bytes "name", JValue.num 3)])
     (bytes "json: cannot unmarshal value into string field")
     (List.mem_singleton.mpr rfl) rfl⟩

theorem setField_str_ok (t : Tune) (k s : List Nat) :
    ∃ t2, setField t k (JValue.str s) = .ok t2 := by
  unfold setField
  split_ifs <;> exact ⟨_, rfl⟩

theorem decodeTuneFields_str_ok :
    ∀ (fs : List (List Nat × JValue)) (t : Tune),
      (∀ p ∈ fs, ∃ s, p.2 = JValue.str s) →
      ∃ t2, decodeTuneFields t fs = .ok t2
  | [], t => fun _ => ⟨t, rfl⟩
  | (k, v) :: fs, t => by
    intro h
    obtain ⟨s, hs⟩ := h (k, v) (List.mem_cons_self _ _)
    simp only at hs
    subst hs
    obtain ⟨t2, ht2⟩ := setField_str_ok t k s
    obtain ⟨t3, ht3⟩ := decodeTuneFields_str_ok fs t2
      (fun p hp => h p (List.mem_cons_of_mem _ hp))
    exact ⟨t3, by simp only [decodeTuneFields, ht2]; exact ht3⟩

/-- C9: element objects may omit any field, the required ones included; an
omitted field keeps the empty string, so an array of empty objects decodes
to records whose fields are all empty, and any object whose present members
are all strings decodes without error. -/
theorem C9_omitted_fields :
    (∀ n : Nat,
       decodeTunes (JValue.arr (List.replicate n (JValue.obj []))) =
         .ok (List.replicate n emptyTune)) ∧
    (∀ fs : List (List Nat × JValue),
       (∀ p ∈ fs, ∃ s, p.2 = JValue.str s) →
       ∃ t, decodeTune (JValue.obj fs) = .ok t) := by
  constructor
  · intro n
    induction n with
    | zero => rfl
    | succ m ih =>
      simp only [List.replicate, decodeTunes] at ih ⊢
      simp only [decodeTuneList, decodeTune, decodeTuneFields, ih]
      rfl
  · intro fs h
    exact decodeTuneFields_str_ok fs emptyTune h

/-- C9 witness: two empty objects decode to two all-empty records, and an
object holding only a name member decodes without error. -/
theorem C9_omitted_fields_witness :
    decodeTunes (JValue.arr (List.replicate 2 (JValue.obj []))) =
      .ok (List.replicate 2 emptyTune) ∧
    ∃ t, decodeTune (JValue.obj [(bytes "name", JValue.str (bytes "A"))]) = .ok t :=
  ⟨C9_omitted_fields.1 2,
   C9_omitted_fields.2 [(bytes "name", JValue.str (bytes "A"))]
     (by
       intro p hp
       rw [List.mem_singleton] at hp
       subst hp
       exact ⟨bytes "A", rfl⟩)⟩
